import Mathlib

/-!
# Verification of srclib's query command and reference index

Shallow embedding of the dependency resolver (`listRepoDependencies` in
`src/query_cmd.go`), the query result loop (`query` in `src/query_cmd.go`),
and the cross-reference index (`store/def_xrefs_index.go`; the source file
only declares `Build`/`Update` with placeholder bodies and declares no
lookup, so the index behavior is modelled from the spec).

External collaborators (the Sourcegraph API client, the local build store
filesystem, JSON decoding) are modelled as environment records holding the
values the code would observe: an `Option` result stands for a fallible
call (`none` = the call returned an error).
-/

namespace Srclib

/-! ## Data model: dependency resolution (package `dep`) -/

/-- `dep.ResolvedTarget`: the concrete target a raw dependency resolves to.
Fields mirror the Go struct fields used by `query_cmd.go`. -/
structure ResolvedTarget where
  ToRepoCloneURL : String
  ToUnitType : String
  ToUnit : String
  ToRevSpec : String
deriving DecidableEq, Repr

/-- `dep.Resolution`: one record of a dependency-resolution build-data file.
Only the `Target` field is read by `listRepoDependencies` (`d.Target`). -/
structure Resolution where
  Target : Option ResolvedTarget
deriving DecidableEq, Repr

/-- The current VCS repository (`*Repo` in the CLI): `repo.URI()` and
`repo.CommitID` are the two observations `listRepoDependencies` makes. -/
structure Repo where
  uri : String
  commitID : String
deriving Repr

/-- One file visited by the `fs.WalkFS(".", commitFS)` walk: its path and the
result of JSON-decoding it as `[]*dep.Resolution` (`none` = decode error;
only consulted when the path has the dep-resolution suffix). -/
structure LocalFile where
  path : String
  content : Option (List Resolution)
deriving Repr

/-- Remote build status, the observations taken from the result of
`cl.Repos.GetBuild(repoRevSpec, &RepoGetBuildOptions{Exact: true})`:
`b.Exact.CommitID` when `b.Exact != nil`, and `b.LastSuccessfulCommit.ID`
when `b.LastSuccessfulCommit != nil`. -/
structure BuildInfo where
  exactCommitID : Option String
  lastSuccessfulCommitID : Option String
deriving Repr

/-- One record returned by `cl.Repos.ListDependencies`; the code reads only
`d.ToRepo`. -/
structure RemoteDep where
  ToRepo : String
deriving Repr

/-- Environment of `listRepoDependencies`: everything the function observes
from outside. `buildInfo = none` models `GetBuild` returning an error;
`remoteDeps = none` models `ListDependencies` returning an error. -/
structure DepEnv where
  repo : Option Repo
  buildDataExists : Bool
  localFiles : List LocalFile
  buildInfo : Option BuildInfo
  remoteDeps : Option (List RemoteDep)
deriving Repr

/-- `buildstore.DataTypeSuffix([]*dep.ResolvedDep{})` (external package
`buildstore`): the fixed file-name suffix identifying dependency-resolution
build-data files. Its exact value is irrelevant to every property proved
below; only suffix membership is tested. -/
def depSuffix : String := ".depresolve.json"

/-- `strings.HasSuffix(depfile, depSuffix)`: suffix test on the character
sequence of the path. -/
def hasDepSuffix (p : String) : Bool := depSuffix.data.isSuffixOf p.data

/-- The body of the `for _, d := range deps` loop over one decoded file:
`if d.Target != nil && d.Target.ToRepoCloneURL != "" { depTargets[*d.Target] = struct{}{} }`.
The Go `map[dep.ResolvedTarget]struct{}` is embedded as a `Finset`. -/
def collectStep (acc : Finset ResolvedTarget) (d : Resolution) :
    Finset ResolvedTarget :=
  match d.Target with
  | some t => if t.ToRepoCloneURL ≠ "" then insert t acc else acc
  | none => acc

/-- The `for _, d := range deps` loop over one decoded file's records. -/
def collectTargets (ds : List Resolution) (acc : Finset ResolvedTarget) :
    Finset ResolvedTarget :=
  ds.foldl collectStep acc

/-- The `for w.Step()` walk: every path with the dep-resolution suffix is
decoded (a decode error aborts with `fmt.Errorf("%s: %s", depfile, err)`),
marks `hasDepResolveFile`, and contributes its qualifying targets. -/
def walkDepFiles : List LocalFile → Finset ResolvedTarget → Bool →
    Except String (Finset ResolvedTarget × Bool)
  | [], acc, hasDepResolveFile => .ok (acc, hasDepResolveFile)
  | f :: fs, acc, hasDepResolveFile =>
    match hasDepSuffix f.path, f.content with
    | true, none => .error (f.path ++ ": decode error")
    | true, some ds => walkDepFiles fs (collectTargets ds acc) true
    | false, _ => walkDepFiles fs acc hasDepResolveFile

/-- The error built at the end of `listRepoDependencies`:
`fmt.Errorf("No dependencies found for repo %s commit %s. ...", uri, repo.CommitID)`. -/
def depsNotFoundMsg (uri commitID : String) : String :=
  "No dependencies found for repo " ++ uri ++ " commit " ++ commitID ++
    ". Try running `src config && src make` to build this commit locally, or run `src remote build` to trigger a build on Sourcegraph."

/-- The commit chosen by the remote fallback: `repo.CommitID` when the remote
has an exact build for it, else the last successful ancestor commit, else
`""` (Go leaves `var commitID string` at its zero value). -/
def resolveRemoteCommitID (b : BuildInfo) (repoCommitID : String) : String :=
  if b.exactCommitID = some repoCommitID then repoCommitID
  else
    match b.lastSuccessfulCommitID with
    | some c => c
    | none => ""

/-- The minimal target built for one remote dependency record:
`dep.ResolvedTarget{ToRepoCloneURL: d.ToRepo}` (all other fields zero). -/
def minimalTarget (d : RemoteDep) : ResolvedTarget :=
  ⟨d.ToRepo, "", "", ""⟩

/-- The remote half of `listRepoDependencies` (from `// Unable to determine
deps locally.` to the final `fmt.Errorf`). `depTargets` is the accumulator
map built so far (still threaded, as in the Go code). Note the Go code
dereferences `repo.CommitID` here, so a `nil` repo is a panic. -/
def remoteLookup (env : DepEnv) (uri : String)
    (depTargets : Finset ResolvedTarget) : Except String (Finset ResolvedTarget) :=
  match env.repo with
  | none => .error "panic: nil pointer dereference (repo.CommitID)"
  | some r =>
    match env.buildInfo with
    | none => .error "GetBuild error"
    | some b =>
      let commitID := resolveRemoteCommitID b r.commitID
      if commitID ≠ "" then
        match env.remoteDeps with
        | none => .error "ListDependencies error"
        | some deps =>
          .ok (deps.foldl (fun acc d => insert (minimalTarget d) acc) depTargets)
      else
        .error (depsNotFoundMsg uri r.commitID)

/-- `listRepoDependencies(cl, repo, uri)` from `src/query_cmd.go`: local-first
scan of the build store for the exact commit, returning the local answer
whenever at least one dep-resolution file was found, else remote fallback. -/
def listRepoDependencies (env : DepEnv) (uri : String) :
    Except String (Finset ResolvedTarget) :=
  match env.repo.any (fun r => r.uri == uri) && env.buildDataExists,
        walkDepFiles env.localFiles ∅ false with
  | true, .error e => .error e
  | true, .ok (tgts, true) => .ok tgts
  | true, .ok (tgts, false) => remoteLookup env uri tgts
  | false, _ => remoteLookup env uri ∅

/-- A target `t` is collected from the local scan of `fs` exactly when some
dep-resolution file decodes to a record with `Target == t` and a non-empty
clone URL (the condition of the collection loop in `listRepoDependencies`). -/
def qualifiesIn (t : ResolvedTarget) (fs : List LocalFile) : Prop :=
  ∃ f ∈ fs, hasDepSuffix f.path = true ∧
    ∃ ds, f.content = some ds ∧
      ∃ d ∈ ds, d.Target = some t ∧ t.ToRepoCloneURL ≠ ""

/-! ## Data model: the `query` result loop (`query` in `src/query_cmd.go`)

The loop's observable behavior is which items it prints, logs, or skips;
terminal formatting (colors, indentation, separators) is display glue the
spec puts out of scope. Each print/log site becomes one `OutEvent`. -/

/-- The fields of a `sourcegraph.Def` search result that the `query` loop
reads. -/
structure SDef where
  Repo : String
  CommitID : String
  UnitType : String
  Unit : String
  Path : String
  Name : String
  File : String
deriving DecidableEq, Repr

/-- The fields of a `sourcegraph.Ref` (an element of the `Defs.ListRefs`
result) that the `query` loop reads. -/
structure QRef where
  Repo : String
  CommitID : String
  File : String
  Start : Nat
  End : Nat
deriving DecidableEq, Repr

/-- The `QueryCmd` flags consulted inside the result loop. -/
structure QueryCmdFlags where
  Def : Bool
  Refs : Nat
  ContextLines : Nat
  Authors : Bool
  Terse : Bool
deriving DecidableEq, Repr

/-- One observable output of the `query` loop: a printed item or a logged
skip, in emission order. -/
inductive OutEvent where
  | noResults (queryString : String)
  | defSummary (d : SDef)
  | defBody (contents : String)
  | logSkipDef (path repo : String)
  | authorLine (email : String)
  | logSkipAuthors (path repo unit : String)
  | logSkipRefs (path repo unit : String)
  | refSrc (repo file : String)
  | refSnippet (contents : String)
  | logSkipExample (repo file : String)
deriving DecidableEq, Repr

/-- Environment of `query`: the remote calls it makes. `none` models the
call returning an error: `Search.Search`, `RepoTree.Get` on the def's own
range, `Defs.ListAuthors`, `Defs.ListRefs`, and `RepoTree.Get` on one
ref's range, respectively. -/
structure QueryEnv where
  searchDefs : String → Option (List SDef)
  defBody : SDef → Option String
  authors : SDef → Option (List String)
  listRefs : SDef → Option (List QRef)
  refSnippet : QRef → Option String

/-- `seenKey := def.Repo + def.UnitType + def.Unit + string(def.Path)`:
the separator-less concatenation used for the duplicate filter. -/
def seenKey (d : SDef) : String :=
  d.Repo ++ d.UnitType ++ d.Unit ++ d.Path

/-- The body of the `for i, x := range xs` loop over one def's refs: the
source line is printed first; then, unless `-1`/terse is set, the snippet
is fetched — a fetch error is logged and that single ref skipped. -/
def processRef (env : QueryEnv) (c : QueryCmdFlags) (x : QRef) :
    List OutEvent :=
  OutEvent.refSrc x.Repo x.File ::
    (match c.Terse with
     | true => []
     | false =>
       match env.refSnippet x with
       | none => [OutEvent.logSkipExample x.Repo x.File]
       | some s => [OutEvent.refSnippet s])

/-- One iteration of the `for _, def := range defs` loop body after the
dedup check: summary, then the optional def body (fetch error logged and
skipped), authors (ditto), and refs (a `ListRefs` error is logged and the
whole refs block skipped via `continue`). -/
def processDef (env : QueryEnv) (c : QueryCmdFlags) (d : SDef) :
    List OutEvent :=
  OutEvent.defSummary d ::
    ((match c.Def with
      | false => []
      | true =>
        match env.defBody d with
        | some s => [OutEvent.defBody s]
        | none => [OutEvent.logSkipDef d.Path d.Repo]) ++
     (match c.Authors with
      | false => []
      | true =>
        match env.authors d with
        | some as => as.map OutEvent.authorLine
        | none => [OutEvent.logSkipAuthors d.Path d.Repo d.Unit]) ++
     (match c.Refs with
      | 0 => []
      | _ + 1 =>
        match env.listRefs d with
        | none => [OutEvent.logSkipRefs d.Path d.Repo d.Unit]
        | some xs => xs.flatMap (processRef env c)))

/-- The `for _, def := range defs` loop with the `seen` duplicate filter
(`seen := map[string]bool{}`, modelled as the list of keys inserted so
far): a def whose concatenated key was already seen is silently dropped. -/
def processDefs (env : QueryEnv) (c : QueryCmdFlags) :
    List SDef → List String → List OutEvent
  | [], _ => []
  | d :: ds, seen =>
    match seen.contains (seenKey d) with
    | true => processDefs env c ds seen
    | false => processDef env c d ++ processDefs env c ds (seenKey d :: seen)

/-- `query(c, cl, queryConstraints, queryString)`: searches for
`queryConstraints + " " + queryString`; a search error is returned, an
empty result prints "No results", and otherwise the result loop runs.
Only the loop's `return err` site (the search) can make it fail. -/
def queryModel (env : QueryEnv) (c : QueryCmdFlags)
    (queryConstraints queryString : String) : Except Unit (List OutEvent) :=
  match env.searchDefs (queryConstraints ++ " " ++ queryString) with
  | none => .error ()
  | some [] => .ok [OutEvent.noResults queryString]
  | some (d :: ds) => .ok (processDefs env c (d :: ds) [])

/-! ## Data model: the cross-reference index (`store/def_xrefs_index.go`)

`store/def_xrefs_index.go` declares `defXRefsIndex` (a phtable plus a
`ready` flag) and the methods `Build`/`Update`, but their bodies are
placeholders (`return nil`) and no lookup method is declared, so the
behavior below is modelled from the spec (§4.1): the spec states that the
compacted hash table is a performance choice only, and any container
meeting the selective-replace and deterministic-order contracts is a valid
implementation, so the index is modelled as the list of indexed refs plus
the `ready` flag. -/

/-- Modelled from the spec: a Def's identifying key as used by the index
(`(Repo, UnitType, Unit, Path)`; the commit is fixed for a given index, as
Defs are produced per commit). -/
structure DefKey where
  Repo : String
  UnitType : String
  Unit : String
  Path : String
deriving DecidableEq, Repr

/-- Modelled from the spec: a reference — a byte range `[Start, End)` in a
file of a given source unit, pointing at a target Def via its key
(`graph.Ref`'s fields as described in §3 of the spec). -/
structure Ref where
  DefRepo : String
  DefUnitType : String
  DefUnit : String
  DefPath : String
  Repo : String
  CommitID : String
  UnitType : String
  Unit : String
  File : String
  Start : Nat
  End : Nat
deriving DecidableEq, Repr

/-- Modelled from the spec: `fileByteRanges` maps file paths to sorted byte
ranges. The index operations receive it (their Go signatures take `fbr`)
but the integrity and lookup contracts do not depend on it: refs are
required to be already normalized. -/
abbrev fileByteRanges := List (String × List (Nat × Nat))

/-- Modelled from the spec: `byteOffsets`, the per-file byte-offset
normalization table; carried through like `fileByteRanges`. -/
abbrev byteOffsets := List (String × List Nat)

/-- The target Def key a ref points at. -/
def refTargetKey (r : Ref) : DefKey :=
  ⟨r.DefRepo, r.DefUnitType, r.DefUnit, r.DefPath⟩

/-- The source unit a ref originates from: `(UnitType, Unit)` scoped to a
repository (spec §3). -/
def unitOf (r : Ref) : String × String × String :=
  (r.Repo, r.UnitType, r.Unit)

/-- Two refs originate from the same source unit. -/
def sameUnit (a b : Ref) : Prop := unitOf a = unitOf b

instance (a b : Ref) : Decidable (sameUnit a b) :=
  inferInstanceAs (Decidable (unitOf a = unitOf b))

/-- Two refs overlap on the same file range (half-open intervals). -/
def overlaps (a b : Ref) : Prop :=
  a.File = b.File ∧ a.Start < b.End ∧ b.Start < a.End

instance (a b : Ref) : Decidable (overlaps a b) :=
  inferInstanceAs (Decidable (_ ∧ _ ∧ _))

/-- A pair of refs violating the integrity contract: same source unit and
overlapping ranges. -/
def badPair (a b : Ref) : Prop := sameUnit a b ∧ overlaps a b

instance (a b : Ref) : Decidable (badPair a b) :=
  inferInstanceAs (Decidable (_ ∧ _))

/-- A ref's target key has a corresponding Def among the known defs. -/
def knownDef (defs : List DefKey) (r : Ref) : Bool :=
  decide (refTargetKey r ∈ defs)

/-- No two refs of the list form a `badPair` (checked over all unordered
pairs of distinct positions). -/
def noPairOverlap : List Ref → Bool
  | [] => true
  | r :: rs => rs.all (fun s => !(decide (badPair r s))) && noPairOverlap rs

/-- Modelled from the spec: the index state — the indexed references plus
the explicit `ready` flag (`defXRefsIndex` holds a phtable and `ready`;
the refs list is the abstract content of the table). -/
structure DefXRefsIndex where
  refs : List Ref
  ready : Bool
deriving DecidableEq, Repr

/-- Modelled from the spec: `Build(refs, fbr, ofs)` constructs the index
from scratch; it fails with a data-integrity error if a ref names a Def
key with no corresponding Def or two refs from the same source unit
overlap on the same file range. `defs` is the known-Def universe the
integrity check runs against. -/
def indexBuild (defs : List DefKey) (refs : List Ref)
    (fbr : fileByteRanges) (ofs : byteOffsets) :
    Except String DefXRefsIndex :=
  match refs.all (knownDef defs), noPairOverlap refs with
  | false, _ => .error "integrity error: a ref names an unknown def"
  | true, false => .error "integrity error: overlapping refs in one source unit"
  | true, true => .ok ⟨refs, true⟩

/-- A ref originates from one of the source units present in `refs`. -/
def fromUnitsOf (refs : List Ref) (r : Ref) : Bool :=
  refs.any (fun s => decide (sameUnit s r))

/-- Modelled from the spec: `Update(refs, fbr, ofs)` — for each distinct
source unit present in `refs`, deletes all previously indexed references
from that unit, then inserts the new ones; the same integrity checks as
`Build` apply and a failure returns an error without a new state. -/
def indexUpdate (defs : List DefKey) (idx : DefXRefsIndex) (refs : List Ref)
    (fbr : fileByteRanges) (ofs : byteOffsets) :
    Except String DefXRefsIndex :=
  match refs.all (knownDef defs), noPairOverlap refs with
  | false, _ => .error "integrity error: a ref names an unknown def"
  | true, false => .error "integrity error: overlapping refs in one source unit"
  | true, true =>
    .ok ⟨idx.refs.filter (fun r => !(fromUnitsOf refs r)) ++ refs, true⟩

/-- The stored state after an attempted `Update`: on failure the index is
left in its prior pre-update state (spec §4.2 rollback requirement). -/
def indexUpdateApply (defs : List DefKey) (idx : DefXRefsIndex)
    (refs : List Ref) (fbr : fileByteRanges) (ofs : byteOffsets) :
    DefXRefsIndex :=
  match indexUpdate defs idx refs fbr ofs with
  | .ok idx' => idx'
  | .error _ => idx

/-- The ascending `(repo, file, start)` sort key of a ref (lexicographic). -/
def refSortKey (r : Ref) : Lex (String × Lex (String × Nat)) :=
  toLex (r.Repo, toLex (r.File, r.Start))

/-- The lookup order: ascending by repo, then file, then start offset. -/
def refLE (a b : Ref) : Prop := refSortKey a ≤ refSortKey b

instance : DecidableRel refLE :=
  fun a b => inferInstanceAs (Decidable (refSortKey a ≤ refSortKey b))

instance : IsTotal Ref refLE :=
  ⟨fun a b => le_total (refSortKey a) (refSortKey b)⟩

instance : IsTrans Ref refLE :=
  ⟨fun _ _ _ hab hbc => le_trans hab hbc⟩

/-- Modelled from the spec: `ReferencesTo(defKey)` — all indexed refs whose
target key equals `defKey`, in ascending `(repo, file, start)` order;
queried before the index is ready it fails fast with a not-ready error. -/
def ReferencesTo (idx : DefXRefsIndex) (k : DefKey) :
    Except String (List Ref) :=
  match idx.ready with
  | false => .error "index not ready"
  | true =>
    .ok (List.insertionSort refLE
      (idx.refs.filter (fun r => refTargetKey r == k)))

/-! ## Concrete environments used to witness the theorems -/

/-- One dep-resolution file whose records yield zero qualifying targets
(one `nil` target, one target with an empty clone URL); the remote side is
set to error so that any fallback would be observable. -/
def c1Env : DepEnv :=
  { repo := some ⟨"github.com/a/b", "c1"⟩
    buildDataExists := true
    localFiles := [⟨"u/p.depresolve.json", some [⟨some ⟨"", "t", "u", "v"⟩⟩, ⟨none⟩]⟩]
    buildInfo := none
    remoteDeps := none }

/-- No local dep-resolution files; remote exact build for commit `c1` and
three dependency records with distinct repo URLs. -/
def c2Env : DepEnv :=
  { repo := some ⟨"github.com/a/b", "c1"⟩
    buildDataExists := false
    localFiles := []
    buildInfo := some ⟨some "c1", none⟩
    remoteDeps := some [⟨"github.com/x/one"⟩, ⟨"github.com/x/two"⟩, ⟨"github.com/x/three"⟩] }

/-- Two dep-resolution files whose records name the identical full target
tuple; the dedup claim says they collapse to one entry. -/
def c3Env : DepEnv :=
  { repo := some ⟨"github.com/a/b", "c1"⟩
    buildDataExists := true
    localFiles :=
      [⟨"u/p.depresolve.json", some [⟨some ⟨"github.com/x/one", "t", "u", "v"⟩⟩]⟩,
       ⟨"q/r.depresolve.json", some [⟨some ⟨"github.com/x/one", "t", "u", "v"⟩⟩]⟩]
    buildInfo := none
    remoteDeps := none }

/-- No local dep-resolution data and no remote build at all: the resolver
must fail with the "No dependencies found" error. -/
def c4Env : DepEnv :=
  { repo := some ⟨"github.com/a/b", "c1"⟩
    buildDataExists := false
    localFiles := []
    buildInfo := some ⟨none, none⟩
    remoteDeps := none }

/-- Flags for the C9 witness: refs requested, not terse. -/
def c9Flags : QueryCmdFlags := ⟨false, 2, 3, false, false⟩

/-- The reference whose snippet fetch fails in the C9 witness. -/
def c9Ref : QRef := ⟨"github.com/a/b", "c1", "f.go", 0, 5⟩

/-- Environment for the C9 witness: the search succeeds, the ref list for
the def is non-empty, and every snippet fetch fails. -/
def c9Env : QueryEnv :=
  { searchDefs := fun _ => some [⟨"github.com/a/b", "c1", "t", "u", "p", "n", "f.go"⟩]
    defBody := fun _ => none
    authors := fun _ => none
    listRefs := fun _ => some [c9Ref]
    refSnippet := fun _ => none }

/-- Two distinct defs whose concatenated keys agree only because a field
boundary moved: `"ab"+"c"` versus `"a"+"bc"`. -/
def c10d1 : SDef := ⟨"ab", "c1", "c", "u", "p", "n1", "f1"⟩

/-- See `c10d1`: same concatenated key, different fields. -/
def c10d2 : SDef := ⟨"a", "c1", "bc", "u", "p", "n2", "f2"⟩

/-- Flags for the C10 witness (all detail flags off). -/
def c10Flags : QueryCmdFlags := ⟨false, 0, 3, false, false⟩

/-- Environment for the C10 witness. -/
def c10Env : QueryEnv :=
  { searchDefs := fun _ => some [c10d1, c10d2]
    defBody := fun _ => none
    authors := fun _ => none
    listRefs := fun _ => none
    refSnippet := fun _ => none }

/-- The def key targeted in the index witnesses. -/
def xk0 : DefKey := ⟨"github.com/a/b", "GoPackage", "p", "F"⟩

/-- An old indexed ref from source unit `(GoPackage, p)`. -/
def xOld : Ref :=
  ⟨"github.com/a/b", "GoPackage", "p", "F",
   "github.com/a/b", "c0", "GoPackage", "p", "old.go", 0, 3⟩

/-- An indexed ref from a different source unit `(GoPackage, q)`. -/
def xOther : Ref :=
  ⟨"github.com/a/b", "GoPackage", "p", "F",
   "github.com/a/b", "c0", "GoPackage", "q", "oth.go", 5, 9⟩

/-- The replacement ref for source unit `(GoPackage, p)`. -/
def xNew : Ref :=
  ⟨"github.com/a/b", "GoPackage", "p", "F",
   "github.com/a/b", "c0", "GoPackage", "p", "new.go", 10, 14⟩

/-- The known-def universe of the index witnesses. -/
def xDefs : List DefKey := [xk0]

/-- A ready index holding one ref from each of two source units. -/
def xIdx : DefXRefsIndex := ⟨[xOld, xOther], true⟩

/-! ## Lemmas about the local scan -/

lemma walkDepFiles_cons (f : LocalFile) (fs : List LocalFile)
    (acc : Finset ResolvedTarget) (b : Bool) :
    walkDepFiles (f :: fs) acc b =
      match hasDepSuffix f.path, f.content with
      | true, none => .error (f.path ++ ": decode error")
      | true, some ds => walkDepFiles fs (collectTargets ds acc) true
      | false, _ => walkDepFiles fs acc b := rfl

lemma listRepoDependencies_eq (env : DepEnv) (uri : String) :
    listRepoDependencies env uri =
      match env.repo.any (fun r => r.uri == uri) && env.buildDataExists,
            walkDepFiles env.localFiles ∅ false with
      | true, .error e => .error e
      | true, .ok (tgts, true) => .ok tgts
      | true, .ok (tgts, false) => remoteLookup env uri tgts
      | false, _ => remoteLookup env uri ∅ := rfl

lemma mem_collectStep (acc : Finset ResolvedTarget) (d : Resolution)
    (t : ResolvedTarget) :
    t ∈ collectStep acc d ↔
      t ∈ acc ∨ (d.Target = some t ∧ t.ToRepoCloneURL ≠ "") := by
  unfold collectStep
  cases h : d.Target with
  | none => simp
  | some s =>
    by_cases hs : s.ToRepoCloneURL = ""
    · simp only [hs, ne_eq, not_true_eq_false, if_false]
      constructor
      · exact Or.inl
      · rintro (hmem | ⟨hst, hne⟩)
        · exact hmem
        · cases hst
          exact absurd hs hne
    · simp only [ne_eq, hs, not_false_eq_true, if_true, Finset.mem_insert]
      constructor
      · rintro (rfl | hmem)
        · exact Or.inr ⟨rfl, hs⟩
        · exact Or.inl hmem
      · rintro (hmem | ⟨hst, _⟩)
        · exact Or.inr hmem
        · cases hst
          exact Or.inl rfl

lemma mem_collectTargets (ds : List Resolution) (acc : Finset ResolvedTarget)
    (t : ResolvedTarget) :
    t ∈ collectTargets ds acc ↔
      t ∈ acc ∨ ∃ d ∈ ds, d.Target = some t ∧ t.ToRepoCloneURL ≠ "" := by
  induction ds generalizing acc with
  | nil => simp [collectTargets]
  | cons d ds ih =>
    show t ∈ collectTargets ds (collectStep acc d) ↔ _
    rw [ih, mem_collectStep]
    simp only [List.mem_cons]
    constructor
    · rintro ((hmem | hd) | ⟨d', hd', hp⟩)
      · exact Or.inl hmem
      · exact Or.inr ⟨d, Or.inl rfl, hd⟩
      · exact Or.inr ⟨d', Or.inr hd', hp⟩
    · rintro (hmem | ⟨d', (rfl | hd'), hp⟩)
      · exact Or.inl (Or.inl hmem)
      · exact Or.inl (Or.inr hp)
      · exact Or.inr ⟨d', hd', hp⟩

lemma qualifiesIn_cons (t : ResolvedTarget) (f : LocalFile) (fs : List LocalFile) :
    qualifiesIn t (f :: fs) ↔
      (hasDepSuffix f.path = true ∧
        ∃ ds, f.content = some ds ∧
          ∃ d ∈ ds, d.Target = some t ∧ t.ToRepoCloneURL ≠ "") ∨
      qualifiesIn t fs := by
  unfold qualifiesIn
  constructor
  · rintro ⟨g, hg, hp⟩
    rcases List.mem_cons.mp hg with rfl | hg'
    · exact Or.inl hp
    · exact Or.inr ⟨g, hg', hp⟩
  · rintro (hp | ⟨g, hg, hp⟩)
    · exact ⟨f, List.mem_cons_self f fs, hp⟩
    · exact ⟨g, List.mem_cons_of_mem f hg, hp⟩

/-- Characterization of the walk when every dep-resolution file decodes:
it succeeds, reports whether any dep-resolution file was seen, and collects
exactly the accumulator plus the qualifying targets. -/
lemma walkDepFiles_ok (fs : List LocalFile) (acc : Finset ResolvedTarget)
    (b : Bool)
    (hdec : ∀ f ∈ fs, hasDepSuffix f.path = true → f.content.isSome) :
    ∃ tgts, walkDepFiles fs acc b =
        .ok (tgts, b || fs.any (fun f => hasDepSuffix f.path)) ∧
      ∀ t, t ∈ tgts ↔ (t ∈ acc ∨ qualifiesIn t fs) := by
  induction fs generalizing acc b with
  | nil =>
    refine ⟨acc, ?_, ?_⟩
    · simp [walkDepFiles]
    · intro t
      simp [qualifiesIn]
  | cons f fs ih =>
    cases hsuf : hasDepSuffix f.path with
    | true =>
      have hc := hdec f (List.mem_cons_self f fs) hsuf
      obtain ⟨ds, hds⟩ := Option.isSome_iff_exists.mp hc
      obtain ⟨tgts, hw, hmem⟩ := ih (collectTargets ds acc) true
        (fun g hg => hdec g (List.mem_cons_of_mem f hg))
      refine ⟨tgts, ?_, ?_⟩
      · rw [walkDepFiles_cons, hsuf, hds]
        simp only [List.any_cons, hsuf, Bool.true_or, Bool.or_true]
        exact hw
      · intro t
        rw [hmem t, mem_collectTargets, qualifiesIn_cons]
        constructor
        · rintro ((hmem' | hq) | hq')
          · exact Or.inl hmem'
          · exact Or.inr (Or.inl ⟨hsuf, ds, hds, hq⟩)
          · exact Or.inr (Or.inr hq')
        · rintro (hmem' | (⟨_, ds', hds', hq⟩ | hq'))
          · exact Or.inl (Or.inl hmem')
          · rw [hds] at hds'
            cases hds'
            exact Or.inl (Or.inr hq)
          · exact Or.inr hq'
    | false =>
      obtain ⟨tgts, hw, hmem⟩ := ih acc b
        (fun g hg => hdec g (List.mem_cons_of_mem f hg))
      refine ⟨tgts, ?_, ?_⟩
      · rw [walkDepFiles_cons, hsuf]
        simp only [List.any_cons, hsuf, Bool.false_or]
        exact hw
      · intro t
        rw [hmem t, qualifiesIn_cons]
        constructor
        · rintro (hmem' | hq)
          · exact Or.inl hmem'
          · exact Or.inr (Or.inr hq)
        · rintro (hmem' | (⟨hsuf', _⟩ | hq'))
          · exact Or.inl hmem'
          · rw [hsuf] at hsuf'
            exact absurd hsuf' (by simp)
          · exact Or.inr hq'

/-- When no file has the dep-resolution suffix the walk changes nothing. -/
lemma walkDepFiles_nofile (fs : List LocalFile) (acc : Finset ResolvedTarget)
    (b : Bool) (hno : ∀ f ∈ fs, ¬ hasDepSuffix f.path = true) :
    walkDepFiles fs acc b = .ok (acc, b) := by
  induction fs with
  | nil => rfl
  | cons f fs ih =>
    have hf : hasDepSuffix f.path = false :=
      Bool.eq_false_iff.mpr (hno f (List.mem_cons_self f fs))
    rw [walkDepFiles_cons, hf]
    exact ih (fun g hg => hno g (List.mem_cons_of_mem f hg))

/-- The whole local branch, when at least one dep-resolution file exists and
all of them decode: `listRepoDependencies` returns exactly the local set. -/
lemma listRepoDependencies_local (env : DepEnv) (uri : String) (r : Repo)
    (hrepo : env.repo = some r) (huri : r.uri = uri)
    (hexists : env.buildDataExists = true)
    (hdec : ∀ f ∈ env.localFiles, hasDepSuffix f.path = true →
      f.content.isSome)
    (hfile : ∃ f ∈ env.localFiles, hasDepSuffix f.path = true) :
    ∃ tgts, listRepoDependencies env uri = .ok tgts ∧
      ∀ t, t ∈ tgts ↔ qualifiesIn t env.localFiles := by
  obtain ⟨tgts, hw, hmem⟩ := walkDepFiles_ok env.localFiles ∅ false hdec
  have hany : env.localFiles.any (fun f => hasDepSuffix f.path) = true :=
    List.any_eq_true.mpr (by
      obtain ⟨f, hf, hsuf⟩ := hfile
      exact ⟨f, hf, hsuf⟩)
  refine ⟨tgts, ?_, fun t => by rw [hmem t]; simp⟩
  rw [listRepoDependencies_eq, hrepo, hw, hany]
  simp only [Option.any_some, huri, beq_self_eq_true, hexists, Bool.and_self,
    Bool.false_or]

/-! ## Lemmas about the remote fallback -/

/-- With no dep-resolution file in sight the function always reaches the
remote fallback with an empty accumulator, whichever way the local guard
goes. -/
lemma listRepoDependencies_nolocal (env : DepEnv) (uri : String)
    (hno : ∀ f ∈ env.localFiles, ¬ hasDepSuffix f.path = true) :
    listRepoDependencies env uri = remoteLookup env uri ∅ := by
  rw [listRepoDependencies_eq, walkDepFiles_nofile env.localFiles ∅ false hno]
  cases (env.repo.any (fun r => r.uri == uri) && env.buildDataExists) <;> rfl

lemma mem_foldl_insert (deps : List RemoteDep) (acc : Finset ResolvedTarget)
    (t : ResolvedTarget) :
    t ∈ deps.foldl (fun a d => insert (minimalTarget d) a) acc ↔
      t ∈ acc ∨ ∃ d ∈ deps, t = minimalTarget d := by
  induction deps generalizing acc with
  | nil => simp
  | cons d ds ih =>
    rw [List.foldl_cons, ih]
    simp only [Finset.mem_insert, List.mem_cons]
    constructor
    · rintro ((rfl | h) | ⟨d', hd', rfl⟩)
      · exact Or.inr ⟨d, Or.inl rfl, rfl⟩
      · exact Or.inl h
      · exact Or.inr ⟨d', Or.inr hd', rfl⟩
    · rintro (h | ⟨d', (rfl | hd'), rfl⟩)
      · exact Or.inl (Or.inr h)
      · exact Or.inl (Or.inl rfl)
      · exact Or.inr ⟨d', hd', rfl⟩

lemma foldl_insert_eq_toFinset (deps : List RemoteDep) :
    deps.foldl (fun a d => insert (minimalTarget d) a) ∅ =
      (deps.map minimalTarget).toFinset := by
  refine Finset.ext fun t => ?_
  rw [mem_foldl_insert]
  constructor
  · rintro (h | ⟨d, hd, rfl⟩)
    · exact absurd h (Finset.not_mem_empty t)
    · exact List.mem_toFinset.mpr (List.mem_map.mpr ⟨d, hd, rfl⟩)
  · intro h
    obtain ⟨d, hd, hdt⟩ := List.mem_map.mp (List.mem_toFinset.mp h)
    exact Or.inr ⟨d, hd, hdt.symm⟩

lemma remoteLookup_deps (env : DepEnv) (uri : String) (r : Repo)
    (b : BuildInfo) (deps : List RemoteDep) (acc : Finset ResolvedTarget)
    (hrepo : env.repo = some r) (hb : env.buildInfo = some b)
    (hcommit : resolveRemoteCommitID b r.commitID ≠ "")
    (hdeps : env.remoteDeps = some deps) :
    remoteLookup env uri acc =
      .ok (deps.foldl (fun a d => insert (minimalTarget d) a) acc) := by
  simp [remoteLookup, hrepo, hb, hdeps, hcommit]

lemma remoteLookup_error (env : DepEnv) (uri : String) (r : Repo)
    (b : BuildInfo) (acc : Finset ResolvedTarget)
    (hrepo : env.repo = some r) (hb : env.buildInfo = some b)
    (hcommit : resolveRemoteCommitID b r.commitID = "") :
    remoteLookup env uri acc = .error (depsNotFoundMsg uri r.commitID) := by
  simp [remoteLookup, hrepo, hb, hcommit]

/-! ## Claim theorems -/

/-- **C1**: if the local build store holds at least one dep-resolution file
for the exact repo+commit (and they all decode), `listRepoDependencies`
returns exactly the locally decoded qualifying targets; the result does not
depend on the remote at all; and zero qualifying local records give the
empty set as a final answer, never a remote fallback. -/
theorem local_resolution_total_precedence (env : DepEnv) (uri : String)
    (r : Repo)
    (hrepo : env.repo = some r) (huri : r.uri = uri)
    (hexists : env.buildDataExists = true)
    (hdec : ∀ f ∈ env.localFiles, hasDepSuffix f.path = true →
      f.content.isSome)
    (hfile : ∃ f ∈ env.localFiles, hasDepSuffix f.path = true) :
    (∃ tgts, listRepoDependencies env uri = .ok tgts ∧
      ∀ t, t ∈ tgts ↔ qualifiesIn t env.localFiles) ∧
    (∀ b' d',
      listRepoDependencies { env with buildInfo := b', remoteDeps := d' } uri =
        listRepoDependencies env uri) ∧
    ((∀ t, ¬ qualifiesIn t env.localFiles) →
      listRepoDependencies env uri = .ok ∅) := by
  obtain ⟨tgts, hok, hmem⟩ :=
    listRepoDependencies_local env uri r hrepo huri hexists hdec hfile
  refine ⟨⟨tgts, hok, hmem⟩, ?_, ?_⟩
  · intro b' d'
    obtain ⟨tgts', hok', hmem'⟩ :=
      listRepoDependencies_local { env with buildInfo := b', remoteDeps := d' }
        uri r hrepo huri hexists hdec hfile
    rw [hok, hok']
    exact congrArg Except.ok
      (Finset.ext fun t => (hmem' t).trans (hmem t).symm)
  · intro hnone
    rw [hok]
    exact congrArg Except.ok
      (Finset.eq_empty_iff_forall_not_mem.mpr
        (fun t ht => hnone t ((hmem t).mp ht)))

/-- Witness for C1: a repo whose only dep-resolution file decodes to zero
qualifying records (a nil target and an empty clone URL) gets the empty set
as a final local answer, even though the remote side would error. -/
theorem local_resolution_total_precedence_witness :
    listRepoDependencies c1Env "github.com/a/b" = .ok ∅ :=
  (local_resolution_total_precedence c1Env "github.com/a/b"
    ⟨"github.com/a/b", "c1"⟩ rfl rfl rfl (by decide) (by decide)).2.2
    (by
      rintro t ⟨f, hf, hsuf, ds, hds, d, hd, hT, hURL⟩
      have hfeq : f = ⟨"u/p.depresolve.json",
          some [⟨some ⟨"", "t", "u", "v"⟩⟩, ⟨none⟩]⟩ := by
        simpa [c1Env] using hf
      subst hfeq
      obtain rfl : ([⟨some ⟨"", "t", "u", "v"⟩⟩, ⟨none⟩] : List Resolution) = ds :=
        Option.some.inj hds
      have hd' : d = (⟨some ⟨"", "t", "u", "v"⟩⟩ : Resolution) ∨
          d = (⟨none⟩ : Resolution) := by simpa using hd
      rcases hd' with rfl | rfl
      · exact hURL (Option.some.inj hT ▸ rfl)
      · exact Option.noConfusion hT)

/-- **C3**: the locally resolved dependency set holds exactly one entry per
distinct qualifying `(ToRepoCloneURL, ToUnitType, ToUnit, ToRevSpec)` tuple
(multiplicity one), and none for non-qualifying tuples, regardless of how
many records named the tuple or which file introduced them. -/
theorem local_dep_targets_deduplicated (env : DepEnv) (uri : String)
    (r : Repo)
    (hrepo : env.repo = some r) (huri : r.uri = uri)
    (hexists : env.buildDataExists = true)
    (hdec : ∀ f ∈ env.localFiles, hasDepSuffix f.path = true →
      f.content.isSome)
    (hfile : ∃ f ∈ env.localFiles, hasDepSuffix f.path = true) :
    ∃ tgts, listRepoDependencies env uri = .ok tgts ∧
      ∀ t, (qualifiesIn t env.localFiles → tgts.val.count t = 1) ∧
        (¬ qualifiesIn t env.localFiles → tgts.val.count t = 0) := by
  obtain ⟨tgts, hok, hmem⟩ :=
    listRepoDependencies_local env uri r hrepo huri hexists hdec hfile
  refine ⟨tgts, hok, fun t => ⟨?_, ?_⟩⟩
  · intro hq
    exact Multiset.count_eq_one_of_mem tgts.nodup ((hmem t).mpr hq)
  · intro hq
    exact Multiset.count_eq_zero.mpr (fun hmem' => hq ((hmem t).mp hmem'))

/-- Witness for C3: two files each naming the identical full target tuple;
the tuple is counted exactly once in the result. -/
theorem local_dep_targets_deduplicated_witness :
    ∃ tgts, listRepoDependencies c3Env "github.com/a/b" = .ok tgts ∧
      ∀ t, (qualifiesIn t c3Env.localFiles → tgts.val.count t = 1) ∧
        (¬ qualifiesIn t c3Env.localFiles → tgts.val.count t = 0) :=
  local_dep_targets_deduplicated c3Env "github.com/a/b"
    ⟨"github.com/a/b", "c1"⟩ rfl rfl rfl (by decide) (by decide)

/-- **C2**: with no local dep-resolution file, the resolver goes remote
(exact build preferred, else last successful ancestor) and every remote
dependency record becomes a `ResolvedTarget` with only `ToRepoCloneURL`
populated; distinct repo URLs give distinct targets, so `n` records with
distinct URLs give exactly `n` targets. -/
theorem remote_fallback_minimal_targets (env : DepEnv) (uri : String)
    (r : Repo) (b : BuildInfo) (deps : List RemoteDep)
    (hrepo : env.repo = some r)
    (hnofile : ∀ f ∈ env.localFiles, ¬ hasDepSuffix f.path = true)
    (hb : env.buildInfo = some b)
    (hcommit : (b.exactCommitID = some r.commitID ∧ r.commitID ≠ "") ∨
      (b.exactCommitID ≠ some r.commitID ∧
        ∃ c, b.lastSuccessfulCommitID = some c ∧ c ≠ ""))
    (hdeps : env.remoteDeps = some deps) :
    ∃ tgts, listRepoDependencies env uri = .ok tgts ∧
      (∀ t, t ∈ tgts ↔ ∃ d ∈ deps, t = minimalTarget d) ∧
      (∀ t ∈ tgts, t.ToUnitType = "" ∧ t.ToUnit = "" ∧ t.ToRevSpec = "") ∧
      ((deps.map RemoteDep.ToRepo).Nodup → tgts.card = deps.length) := by
  have hc : resolveRemoteCommitID b r.commitID ≠ "" := by
    unfold resolveRemoteCommitID
    rcases hcommit with ⟨he, hne⟩ | ⟨hne, c, hlast, hcne⟩
    · rw [if_pos he]
      exact hne
    · rw [if_neg hne, hlast]
      exact hcne
  rw [listRepoDependencies_nolocal env uri hnofile,
    remoteLookup_deps env uri r b deps ∅ hrepo hb hc hdeps]
  refine ⟨_, rfl, ?_, ?_, ?_⟩
  · intro t
    rw [mem_foldl_insert]
    simp
  · intro t ht
    obtain ⟨d, _, rfl⟩ := (by simpa using (mem_foldl_insert deps ∅ t).mp ht :
      ∃ d ∈ deps, t = minimalTarget d)
    exact ⟨rfl, rfl, rfl⟩
  · intro hnd
    rw [foldl_insert_eq_toFinset]
    have hinj : Function.Injective (fun u => (⟨u, "", "", ""⟩ : ResolvedTarget)) :=
      fun a b h => congrArg ResolvedTarget.ToRepoCloneURL h
    have hmapnd : (deps.map minimalTarget).Nodup := by
      have : deps.map minimalTarget =
          (deps.map RemoteDep.ToRepo).map (fun u => (⟨u, "", "", ""⟩ : ResolvedTarget)) := by
        rw [List.map_map]
        rfl
      rw [this]
      exact hnd.map hinj
    rw [List.toFinset_card_of_nodup hmapnd, List.length_map]

/-- Witness for C2: three remote records with distinct repo URLs give three
minimal targets. -/
theorem remote_fallback_minimal_targets_witness :
    ∃ tgts, listRepoDependencies c2Env "github.com/a/b" = .ok tgts ∧
      (∀ t, t ∈ tgts ↔
        ∃ d ∈ [(⟨"github.com/x/one"⟩ : RemoteDep), ⟨"github.com/x/two"⟩,
          ⟨"github.com/x/three"⟩], t = minimalTarget d) ∧
      (∀ t ∈ tgts, t.ToUnitType = "" ∧ t.ToUnit = "" ∧ t.ToRevSpec = "") ∧
      (([(⟨"github.com/x/one"⟩ : RemoteDep), ⟨"github.com/x/two"⟩,
          ⟨"github.com/x/three"⟩].map RemoteDep.ToRepo).Nodup →
        tgts.card = 3) :=
  remote_fallback_minimal_targets c2Env "github.com/a/b"
    ⟨"github.com/a/b", "c1"⟩ ⟨some "c1", none⟩ _ rfl (by decide) rfl
    (Or.inl ⟨rfl, by decide⟩) rfl

/-- **C4**: with no local dep-resolution file and no remote build (no exact
build, no last-successful ancestor), the resolver fails with the
"No dependencies found" error naming the repo URI and the commit ID and
pointing at the build commands; no dependency set is returned. -/
theorem deps_unknown_error (env : DepEnv) (uri : String) (r : Repo)
    (b : BuildInfo)
    (hrepo : env.repo = some r)
    (hnofile : ∀ f ∈ env.localFiles, ¬ hasDepSuffix f.path = true)
    (hb : env.buildInfo = some b)
    (hnoexact : b.exactCommitID ≠ some r.commitID)
    (hnolast : b.lastSuccessfulCommitID = none) :
    listRepoDependencies env uri = .error (depsNotFoundMsg uri r.commitID) ∧
    (∀ tgts, listRepoDependencies env uri ≠ .ok tgts) ∧
    (∃ p q s, depsNotFoundMsg uri r.commitID =
      p ++ uri ++ q ++ r.commitID ++ s) := by
  have hc : resolveRemoteCommitID b r.commitID = "" := by
    unfold resolveRemoteCommitID
    rw [if_neg hnoexact, hnolast]
  have herr : listRepoDependencies env uri =
      .error (depsNotFoundMsg uri r.commitID) := by
    rw [listRepoDependencies_nolocal env uri hnofile,
      remoteLookup_error env uri r b ∅ hrepo hb hc]
  refine ⟨herr, ?_, ?_⟩
  · intro tgts h
    rw [herr] at h
    exact Except.noConfusion h
  · exact ⟨"No dependencies found for repo ", " commit ",
      ". Try running `src config && src make` to build this commit locally, or run `src remote build` to trigger a build on Sourcegraph.",
      rfl⟩

/-- Witness for C4: no local files, no remote build at all. -/
theorem deps_unknown_error_witness :
    listRepoDependencies c4Env "github.com/a/b" =
      .error (depsNotFoundMsg "github.com/a/b" "c1") :=
  (deps_unknown_error c4Env "github.com/a/b" ⟨"github.com/a/b", "c1"⟩
    ⟨none, none⟩ rfl (by decide) rfl (by decide) rfl).1

/-! ## Lemmas about the query result loop -/

lemma processDefs_cons (env : QueryEnv) (c : QueryCmdFlags) (d : SDef)
    (ds : List SDef) (seen : List String) :
    processDefs env c (d :: ds) seen =
      match seen.contains (seenKey d) with
      | true => processDefs env c ds seen
      | false =>
        processDef env c d ++ processDefs env c ds (seenKey d :: seen) := rfl

lemma not_defSummary_mem_processRef (env : QueryEnv) (c : QueryCmdFlags)
    (x : QRef) (a : SDef) :
    OutEvent.defSummary a ∉ processRef env c x := by
  unfold processRef
  cases c.Terse <;> cases env.refSnippet x <;> simp

lemma defSummary_mem_processDef (env : QueryEnv) (c : QueryCmdFlags)
    (d : SDef) (a : SDef)
    (h : OutEvent.defSummary a ∈ processDef env c d) : a = d := by
  unfold processDef at h
  simp only [List.mem_cons, List.mem_append, or_assoc] at h
  rcases h with h | h | h | h
  · injection h
  · exfalso
    revert h
    cases c.Def <;> cases env.defBody d <;> simp
  · exfalso
    revert h
    cases c.Authors with
    | false => simp
    | true => cases env.authors d <;> simp [List.mem_map]
  · exfalso
    revert h
    cases c.Refs with
    | zero => simp
    | succ n =>
      cases env.listRefs d with
      | none => simp
      | some xs =>
        simp only [List.mem_flatMap]
        rintro ⟨x, _, hx⟩
        exact not_defSummary_mem_processRef env c x a hx

/-- **C9**: a failure to fetch one reference's surrounding source snippet
is logged and only that single item skipped: the ref's source line and the
skip log are emitted, the remaining refs keep being processed, and the
query command still succeeds whenever the search itself succeeded. -/
theorem snippet_fetch_failure_skipped (env : QueryEnv) (c : QueryCmdFlags)
    (x : QRef) (xs : List QRef)
    (hterse : c.Terse = false)
    (hfail : env.refSnippet x = none) :
    processRef env c x =
      [OutEvent.refSrc x.Repo x.File, OutEvent.logSkipExample x.Repo x.File] ∧
    (x :: xs).flatMap (processRef env c) =
      OutEvent.refSrc x.Repo x.File :: OutEvent.logSkipExample x.Repo x.File ::
        xs.flatMap (processRef env c) ∧
    (∀ qc qs defs, env.searchDefs (qc ++ " " ++ qs) = some defs →
      ∃ evs, queryModel env c qc qs = .ok evs) := by
  have h1 : processRef env c x =
      [OutEvent.refSrc x.Repo x.File, OutEvent.logSkipExample x.Repo x.File] := by
    unfold processRef
    rw [hterse, hfail]
  refine ⟨h1, ?_, ?_⟩
  · rw [List.flatMap_cons, h1]
    rfl
  · intro qc qs defs hs
    unfold queryModel
    rw [hs]
    cases defs with
    | nil => exact ⟨_, rfl⟩
    | cons d ds => exact ⟨_, rfl⟩

/-- Witness for C9: a concrete environment where every snippet fetch
errors; the single failing ref yields its source line plus a logged skip. -/
theorem snippet_fetch_failure_skipped_witness :
    processRef c9Env c9Flags c9Ref =
      [OutEvent.refSrc "github.com/a/b" "f.go",
       OutEvent.logSkipExample "github.com/a/b" "f.go"] :=
  (snippet_fetch_failure_skipped c9Env c9Flags c9Ref [] rfl rfl).1

/-- **C10**: the result loop deduplicates by the separator-less
concatenation `Repo ++ UnitType ++ Unit ++ Path`: any def whose
concatenated key was already seen is silently dropped, so of two defs with
equal keys — including distinct defs whose fields differ only in where one
field ends and the next begins — only the first is printed. -/
theorem query_dedup_by_concatenated_key (env : QueryEnv) (c : QueryCmdFlags)
    (d1 d2 : SDef) (hkey : seenKey d1 = seenKey d2) :
    (∀ d : SDef, seenKey d = d.Repo ++ d.UnitType ++ d.Unit ++ d.Path) ∧
    (∀ d ds seen, seen.contains (seenKey d) = true →
      processDefs env c (d :: ds) seen = processDefs env c ds seen) ∧
    processDefs env c [d1, d2] [] = processDef env c d1 ∧
    (d1 ≠ d2 → OutEvent.defSummary d2 ∉ processDefs env c [d1, d2] []) := by
  have hdrop : ∀ d ds seen, seen.contains (seenKey d) = true →
      processDefs env c (d :: ds) seen = processDefs env c ds seen := by
    intro d ds seen h
    rw [processDefs_cons, h]
  have hseen : ([seenKey d1] : List String).contains (seenKey d2) = true := by
    rw [← hkey]
    simp
  have h2 : processDefs env c [d1, d2] [] = processDef env c d1 := by
    rw [processDefs_cons,
      show (([] : List String).contains (seenKey d1)) = false from rfl,
      hdrop d2 [] [seenKey d1] hseen]
    exact List.append_nil _
  refine ⟨fun d => rfl, hdrop, h2, ?_⟩
  intro hne h
  rw [h2] at h
  exact hne (defSummary_mem_processDef env c d1 d2 h).symm

/-- Witness for C10: `⟨Repo:="ab", UnitType:="c"⟩` and `⟨Repo:="a",
UnitType:="bc"⟩` are distinct defs with the same concatenated key; only the
first is printed and the second's summary never appears. -/
theorem query_dedup_by_concatenated_key_witness :
    seenKey c10d1 = seenKey c10d2 ∧
    processDefs c10Env c10Flags [c10d1, c10d2] [] =
      processDef c10Env c10Flags c10d1 ∧
    OutEvent.defSummary c10d2 ∉ processDefs c10Env c10Flags [c10d1, c10d2] [] :=
  ⟨by decide,
   (query_dedup_by_concatenated_key c10Env c10Flags c10d1 c10d2 (by decide)).2.2.1,
   (query_dedup_by_concatenated_key c10Env c10Flags c10d1 c10d2 (by decide)).2.2.2
     (by decide)⟩

/-! ## Lemmas about the cross-reference index -/

lemma fromUnitsOf_eq_false_iff (refs : List Ref) (r : Ref) :
    fromUnitsOf refs r = false ↔ ¬ ∃ s ∈ refs, sameUnit s r := by
  unfold fromUnitsOf
  rw [← Bool.not_eq_true, List.any_eq_true]
  simp

lemma fromUnitsOf_self (refs : List Ref) (r : Ref) (hr : r ∈ refs) :
    fromUnitsOf refs r = true :=
  List.any_eq_true.mpr ⟨r, hr, decide_eq_true rfl⟩

lemma noPairOverlap_iff (refs : List Ref) :
    noPairOverlap refs = true ↔
      refs.Pairwise (fun a b => ¬ badPair a b) := by
  induction refs with
  | nil => simp [noPairOverlap]
  | cons r rs ih =>
    rw [show noPairOverlap (r :: rs) =
        (rs.all (fun s => !(decide (badPair r s))) && noPairOverlap rs) from rfl,
      Bool.and_eq_true, ih, List.pairwise_cons]
    simp only [List.all_eq_true, Bool.not_eq_true', decide_eq_false_iff_not]

/-- **C5** (spec-modelled): a successful `Update` deletes every previously
indexed ref originating from a source unit present in `refs` and inserts
the new refs; refs from other units survive untouched. For each unit
present in `refs`, the post-update refs of that unit are exactly the new
refs of that unit. -/
theorem update_replaces_unit_refs (defs : List DefKey) (idx : DefXRefsIndex)
    (refs : List Ref) (fbr : fileByteRanges) (ofs : byteOffsets)
    (hknown : refs.all (knownDef defs) = true)
    (hov : noPairOverlap refs = true) :
    ∃ idx', indexUpdate defs idx refs fbr ofs = .ok idx' ∧
      (∀ r, r ∈ idx'.refs ↔
        (r ∈ refs ∨ (r ∈ idx.refs ∧ ¬ ∃ s ∈ refs, sameUnit s r))) ∧
      (∀ u, (∃ s ∈ refs, unitOf s = u) →
        idx'.refs.filter (fun r => unitOf r == u) =
          refs.filter (fun r => unitOf r == u)) := by
  refine ⟨⟨idx.refs.filter (fun r => !(fromUnitsOf refs r)) ++ refs, true⟩,
    ?_, ?_, ?_⟩
  · unfold indexUpdate
    rw [hknown, hov]
  · intro r
    simp only [List.mem_append, List.mem_filter, Bool.not_eq_true',
      fromUnitsOf_eq_false_iff]
    exact Or.comm
  · rintro u ⟨s, hs, hsu⟩
    show (_ ++ refs).filter _ = _
    rw [List.filter_append]
    have hnil : (idx.refs.filter (fun r => !(fromUnitsOf refs r))).filter
        (fun r => unitOf r == u) = [] := by
      rw [List.filter_eq_nil_iff]
      intro a ha hau
      have hfrom : fromUnitsOf refs a = false := by
        simpa using (List.mem_filter.mp ha).2
      have hsame : sameUnit s a := by
        show unitOf s = unitOf a
        rw [hsu, eq_comm]
        exact beq_iff_eq.mp hau
      exact absurd ⟨s, hs, hsame⟩ ((fromUnitsOf_eq_false_iff refs a).mp hfrom)
    rw [hnil, List.nil_append]

/-- Witness for C5: updating unit `(GoPackage, p)` with one new ref deletes
the unit's old ref, keeps the other unit's ref, and inserts the new one. -/
theorem update_replaces_unit_refs_witness :
    ∃ idx', indexUpdate xDefs xIdx [xNew] [] [] = .ok idx' ∧
      (∀ r, r ∈ idx'.refs ↔
        (r ∈ [xNew] ∨ (r ∈ xIdx.refs ∧ ¬ ∃ s ∈ [xNew], sameUnit s r))) ∧
      (∀ u, (∃ s ∈ [xNew], unitOf s = u) →
        idx'.refs.filter (fun r => unitOf r == u) =
          [xNew].filter (fun r => unitOf r == u)) :=
  update_replaces_unit_refs xDefs xIdx [xNew] [] [] (by decide) (by decide)

/-- **C6** (spec-modelled): `Build` fails with a data-integrity error when
some ref names a Def key with no corresponding Def or two refs from the
same source unit overlap on a file range; the same failure during an
`Update` returns the error and the stored index stays in its pre-update
state. -/
theorem index_integrity_error (defs : List DefKey) (refs : List Ref)
    (idx : DefXRefsIndex) (fbr : fileByteRanges) (ofs : byteOffsets)
    (hbad : (∃ r ∈ refs, refTargetKey r ∉ defs) ∨
      ¬ refs.Pairwise (fun a b => ¬ badPair a b)) :
    (∃ msg, indexBuild defs refs fbr ofs = .error msg) ∧
    (∀ idx', indexBuild defs refs fbr ofs ≠ .ok idx') ∧
    (∃ msg, indexUpdate defs idx refs fbr ofs = .error msg) ∧
    indexUpdateApply defs idx refs fbr ofs = idx := by
  have hfail : refs.all (knownDef defs) = false ∨
      (refs.all (knownDef defs) = true ∧ noPairOverlap refs = false) := by
    rcases hbad with ⟨r, hr, hk⟩ | hp
    · left
      apply Bool.eq_false_iff.mpr
      intro hall
      exact hk (of_decide_eq_true (List.all_eq_true.mp hall r hr))
    · by_cases hall : refs.all (knownDef defs) = true
      · refine Or.inr ⟨hall, ?_⟩
        cases hno : noPairOverlap refs
        · rfl
        · exact absurd ((noPairOverlap_iff refs).mp hno) hp
      · exact Or.inl (Bool.eq_false_iff.mpr hall)
  have hb : ∃ msg, indexBuild defs refs fbr ofs = .error msg := by
    rcases hfail with h | ⟨h1, h2⟩
    · exact ⟨_, by unfold indexBuild; rw [h]⟩
    · exact ⟨_, by unfold indexBuild; rw [h1, h2]⟩
  have hu : ∃ msg, indexUpdate defs idx refs fbr ofs = .error msg := by
    rcases hfail with h | ⟨h1, h2⟩
    · exact ⟨_, by unfold indexUpdate; rw [h]⟩
    · exact ⟨_, by unfold indexUpdate; rw [h1, h2]⟩
  obtain ⟨m1, hb1⟩ := hb
  obtain ⟨m2, hu1⟩ := hu
  refine ⟨⟨m1, hb1⟩, ?_, ⟨m2, hu1⟩, ?_⟩
  · intro idx' h
    rw [hb1] at h
    exact Except.noConfusion h
  · unfold indexUpdateApply
    rw [hu1]

/-- Witness for C6: a ref naming a key with no known Def fails the update
and leaves the index exactly as it was. -/
theorem index_integrity_error_witness :
    indexUpdateApply [] xIdx [xNew] [] [] = xIdx :=
  (index_integrity_error [] [xNew] xIdx [] []
    (Or.inl ⟨xNew, by decide, by decide⟩)).2.2.2

/-- **C7** (spec-modelled): after a successful `Build` from `refs`,
`ReferencesTo k` returns exactly the refs whose target key equals `k`
(and all of them, as a permutation of the matching sublist), sorted
ascending by `(repo, file, start)`; being a pure function of the index it
is deterministic across runs. -/
theorem referencesTo_exact_and_sorted (defs : List DefKey) (refs : List Ref)
    (fbr : fileByteRanges) (ofs : byteOffsets) (idx : DefXRefsIndex)
    (k : DefKey) (hb : indexBuild defs refs fbr ofs = .ok idx) :
    ∃ l, ReferencesTo idx k = .ok l ∧
      (∀ r, r ∈ l ↔ (r ∈ refs ∧ refTargetKey r = k)) ∧
      l.Sorted refLE ∧
      l.Perm (refs.filter (fun r => refTargetKey r == k)) := by
  have hidx : idx = ⟨refs, true⟩ := by
    unfold indexBuild at hb
    cases h1 : refs.all (knownDef defs) <;> rw [h1] at hb
    · exact Except.noConfusion hb
    · cases h2 : noPairOverlap refs <;> rw [h2] at hb
      · exact Except.noConfusion hb
      · exact (Except.ok.inj hb).symm
  subst hidx
  refine ⟨_, rfl, ?_, ?_, ?_⟩
  · intro r
    rw [List.mem_insertionSort, List.mem_filter]
    simp [beq_iff_eq]
  · exact List.sorted_insertionSort refLE _
  · exact List.perm_insertionSort refLE _

/-- Witness for C7: a two-ref index queried for the shared target key. -/
theorem referencesTo_exact_and_sorted_witness :
    ∃ l, ReferencesTo ⟨[xOld, xOther], true⟩ xk0 = .ok l ∧
      (∀ r, r ∈ l ↔ (r ∈ [xOld, xOther] ∧ refTargetKey r = xk0)) ∧
      l.Sorted refLE ∧
      l.Perm ([xOld, xOther].filter (fun r => refTargetKey r == xk0)) :=
  referencesTo_exact_and_sorted xDefs [xOld, xOther] [] []
    ⟨[xOld, xOther], true⟩ xk0 rfl

/-- **C8** (spec-modelled): `Update` is idempotent — after a successful
update, running the identical update again succeeds with the identical
index state, hence identical `ReferencesTo` results for every def key. -/
theorem update_idempotent (defs : List DefKey) (idx idx1 : DefXRefsIndex)
    (refs : List Ref) (fbr : fileByteRanges) (ofs : byteOffsets)
    (h1 : indexUpdate defs idx refs fbr ofs = .ok idx1) :
    ∃ idx2, indexUpdate defs idx1 refs fbr ofs = .ok idx2 ∧
      idx2 = idx1 ∧
      ∀ k, ReferencesTo idx2 k = ReferencesTo idx1 k := by
  have hcond : refs.all (knownDef defs) = true ∧ noPairOverlap refs = true := by
    unfold indexUpdate at h1
    cases ha : refs.all (knownDef defs) <;> rw [ha] at h1
    · exact Except.noConfusion h1
    · cases ho : noPairOverlap refs <;> rw [ho] at h1
      · exact Except.noConfusion h1
      · exact ⟨rfl, rfl⟩
  obtain ⟨ha, ho⟩ := hcond
  have hidx1 : idx1 =
      ⟨idx.refs.filter (fun r => !(fromUnitsOf refs r)) ++ refs, true⟩ := by
    unfold indexUpdate at h1
    rw [ha, ho] at h1
    exact (Except.ok.inj h1).symm
  have hkept : idx1.refs.filter (fun r => !(fromUnitsOf refs r)) =
      idx.refs.filter (fun r => !(fromUnitsOf refs r)) := by
    rw [hidx1, List.filter_append]
    have h2 : refs.filter (fun r => !(fromUnitsOf refs r)) = [] :=
      List.filter_eq_nil_iff.mpr (fun r hr => by
        rw [fromUnitsOf_self refs r hr]
        simp)
    have h3 : (idx.refs.filter (fun r => !(fromUnitsOf refs r))).filter
        (fun r => !(fromUnitsOf refs r)) =
        idx.refs.filter (fun r => !(fromUnitsOf refs r)) := by
      rw [List.filter_filter]
      exact List.filter_congr (fun a _ => Bool.and_self _)
    rw [h2, h3, List.append_nil]
  have heq : indexUpdate defs idx1 refs fbr ofs = .ok idx1 := by
    unfold indexUpdate
    rw [ha, ho, hkept, ← hidx1]
  exact ⟨idx1, heq, rfl, fun k => rfl⟩

/-- Witness for C8: re-running the witness update of C5 on its own result
returns the identical index. -/
theorem update_idempotent_witness :
    ∃ idx2, indexUpdate xDefs ⟨[xOther, xNew], true⟩ [xNew] [] [] = .ok idx2 ∧
      idx2 = (⟨[xOther, xNew], true⟩ : DefXRefsIndex) ∧
      ∀ k, ReferencesTo idx2 k =
        ReferencesTo (⟨[xOther, xNew], true⟩ : DefXRefsIndex) k :=
  update_idempotent xDefs xIdx ⟨[xOther, xNew], true⟩ [xNew] [] [] rfl

end Srclib
